import Mathlib

/-!
Verification of the NDEF message codec (`src/ndef/src/message.rs`).

The message-level definitions (`NdefMessage`, `flagFor`, `toBufferGo`,
`NdefMessage.to_buffer`, `decodeLoop`, `NdefMessage.decode`) are shallow
embeddings of the Rust source in `message.rs`.  The record-level codec
(`NdefRecord`, its `toBuffer`/`decode`) lives in `record.rs`, which is not
part of the given sources; it is modelled from the specification's wire
format (spec §4.1 and §6).  Bytes are modelled as natural numbers; byte
buffers as `List Nat`.
-/

/-- Modelled from the spec: the 3-bit Type Name Format enumeration
(`TNF` in `record.rs`, not under `src/`).  Values 0..7 per spec §6. -/
inductive TNF where
  | Empty
  | WellKnown
  | MediaType
  | AbsoluteURI
  | External
  | Unknown
  | Unchanged
  | Reserved
deriving DecidableEq, Repr

/-- The 3-bit wire value of a TNF (spec §6: 0=Empty .. 7=Reserved). -/
def TNF.toNat : TNF → Nat
  | .Empty => 0
  | .WellKnown => 1
  | .MediaType => 2
  | .AbsoluteURI => 3
  | .External => 4
  | .Unknown => 5
  | .Unchanged => 6
  | .Reserved => 7

/-- Modelled from the spec: decoding a 3-bit value into a TNF
("the record codec itself accepts any 3-bit value", spec §4.1). -/
def TNF.ofWire : Nat → TNF
  | 0 => .Empty
  | 1 => .WellKnown
  | 2 => .MediaType
  | 3 => .AbsoluteURI
  | 4 => .External
  | 5 => .Unknown
  | 6 => .Unchanged
  | _ => .Reserved

namespace RecordFlags

/-- Header bit 7: Message Begin (`RecordFlags::MB`). -/
def MB : Nat := 128

/-- Header bit 6: Message End (`RecordFlags::ME`). -/
def ME : Nat := 64

/-- Header bit 5: Chunk Flag (`RecordFlags::CF`). -/
def CF : Nat := 32

/-- Header bit 4: Short Record (`RecordFlags::SR`). -/
def SR : Nat := 16

/-- Header bit 3: Id Length present (`RecordFlags::IL`). -/
def IL : Nat := 8

/-- The empty flag set (`RecordFlags::empty()`). -/
def emptySet : Nat := 0

end RecordFlags

/-- Modelled from the spec: one NDEF record (`NdefRecord` in `record.rs`,
not under `src/`).  `flags` holds the header byte's flag bits as read or
written on the wire (spec §3: flags exist "at encode/decode time only"). -/
structure NdefRecord where
  flags : Nat
  tnf : TNF
  record_type : List Nat
  id : Option (List Nat)
  payload : List Nat
deriving DecidableEq, Repr

/-- Read one byte from the front of a buffer (cursor read). -/
def readByte : List Nat → Except String (Nat × List Nat)
  | [] => .error "DecodingError: unexpected end of buffer"
  | b :: rest => .ok (b, rest)

/-- Read `n` bytes from the front of a buffer (cursor read). -/
def readBytes (n : Nat) (l : List Nat) : Except String (List Nat × List Nat) :=
  if n ≤ l.length then .ok (l.take n, l.drop n)
  else .error "DecodingError: unexpected end of buffer"

/-- Big-endian 4-byte encoding of a 32-bit payload length (spec §4.1). -/
def u32be (n : Nat) : List Nat :=
  [n / 16777216 % 256, n / 65536 % 256, n / 256 % 256, n % 256]

/-- Modelled from the spec: the record header byte, packed bit 7 → bit 0 as
MB, ME, CF, SR, IL, TNF(3) (spec §4.1).  MB/ME/CF come from the
caller-supplied flags; SR and IL are derived, not caller-supplied. -/
def mkHeader (flag : Nat) (sr il : Bool) (tnf : TNF) : Nat :=
  128 * (flag.testBit 7).toNat + 64 * (flag.testBit 6).toNat +
    32 * (flag.testBit 5).toNat + 16 * sr.toNat + 8 * il.toNat + tnf.toNat

/-- Modelled from the spec: `NdefRecord::to_buffer(flags)` from `record.rs`
(not under `src/`).  Layout per spec §4.1: `header(1) · type_length(1) ·
payload_length(1 if SR else 4, big-endian) · id_length(1, only if IL) ·
type bytes · id bytes (only if IL) · payload bytes`.  SR is derived
(`payload.len() ≤ 255`), IL is derived (id present).  Fails with
`EncodingError` when a length field cannot represent the actual size. -/
def NdefRecord.toBuffer (r : NdefRecord) (flag : Nat) : Except String (List Nat) :=
  if 255 < r.record_type.length then
    .error "EncodingError: record type too long"
  else if 255 < (r.id.getD []).length then
    .error "EncodingError: id too long"
  else if 4294967295 < r.payload.length then
    .error "EncodingError: payload too long"
  else
    let sr : Bool := decide (r.payload.length ≤ 255)
    let il : Bool := r.id.isSome
    let header := mkHeader flag sr il r.tnf
    let plen : List Nat := if sr then [r.payload.length] else u32be r.payload.length
    let idl : List Nat := match r.id with | some i => [i.length] | none => []
    let idb : List Nat := match r.id with | some i => i | none => []
    .ok ([header, r.record_type.length] ++ plen ++ idl ++ r.record_type ++ idb ++ r.payload)

/-- Modelled from the spec: reading the payload-length field — one byte
when the header's SR bit is set, else four big-endian bytes (spec §4.1). -/
def readPayloadLen (header : Nat) (l : List Nat) : Except String (Nat × List Nat) :=
  if header.testBit 4 then readByte l
  else
    match l with
    | b3 :: b2 :: b1 :: b0 :: r => .ok (((b3 * 256 + b2) * 256 + b1) * 256 + b0, r)
    | _ => .error "DecodingError: unexpected end of buffer"

/-- Modelled from the spec: reading the id-length field, present only when
the header's IL bit is set (spec §4.1). -/
def readIdLen (header : Nat) (l : List Nat) : Except String (Option Nat × List Nat) :=
  if header.testBit 3 then
    match readByte l with
    | .ok (b, r) => .ok (some b, r)
    | .error e => .error e
  else .ok (none, l)

/-- Modelled from the spec: reading the id bytes when an id length was
declared (spec §4.1). -/
def readOptBytes (n : Option Nat) (l : List Nat) :
    Except String (Option (List Nat) × List Nat) :=
  match n with
  | some k =>
    match readBytes k l with
    | .ok (b, r) => .ok (some b, r)
    | .error e => .error e
  | none => .ok (none, l)

/-- Modelled from the spec: `NdefRecord::decode(cursor)` from `record.rs`
(not under `src/`).  Advances the cursor exactly past one record's bytes,
failing with `DecodingError` if the cursor has fewer bytes remaining than
a declared length field requires (spec §4.1). -/
def NdefRecord.decode (data : List Nat) : Except String (NdefRecord × List Nat) := do
  let (header, r1) ← readByte data
  let (typeLen, r2) ← readByte r1
  let (payloadLen, r3) ← readPayloadLen header r2
  let (idLen, r4) ← readIdLen header r3
  let (typeBytes, r5) ← readBytes typeLen r4
  let (idBytes, r6) ← readOptBytes idLen r5
  let (payloadBytes, r7) ← readBytes payloadLen r6
  Except.ok
    ({ flags := header, tnf := TNF.ofWire (header % 8), record_type := typeBytes,
       id := idBytes, payload := payloadBytes }, r7)

/-- A record whose sizes the wire length fields can represent (spec §3
invariant): type ≤ 255 bytes, id ≤ 255 bytes when present, payload ≤
2^32 − 1 bytes. -/
def NdefRecord.valid (r : NdefRecord) : Prop :=
  r.record_type.length ≤ 255 ∧ (r.id.getD []).length ≤ 255 ∧
    r.payload.length ≤ 4294967295

/-- Two records agree on their durable identity: tnf, type, id and payload
(spec §3: flags are not part of a record's durable identity). -/
def NdefRecord.sameContent (a b : NdefRecord) : Prop :=
  a.tnf = b.tnf ∧ a.record_type = b.record_type ∧ a.id = b.id ∧ a.payload = b.payload

/-- The record as it comes back from the wire after being encoded with
`flag`: same content, flags holding the encoded header byte. -/
def wireRecord (r : NdefRecord) (flag : Nat) : NdefRecord :=
  { flags := mkHeader flag (decide (r.payload.length ≤ 255)) r.id.isSome r.tnf,
    tnf := r.tnf, record_type := r.record_type, id := r.id, payload := r.payload }

/-- `NdefMessage` from `message.rs`: an ordered collection of records. -/
structure NdefMessage where
  records : List NdefRecord
deriving DecidableEq, Repr

/-- `#[derive(Default)]` on `NdefMessage`: the empty record list. -/
def NdefMessage.defaultMsg : NdefMessage := ⟨[]⟩

/-- `impl<T: AsRef<[NdefRecord]>> From<T> for NdefMessage`. -/
def NdefMessage.ofRecords (rs : List NdefRecord) : NdefMessage := ⟨rs⟩

/-- The flag set `NdefMessage::to_buffer` computes for the record at
`index` in a message of `n` records (`message.rs` lines 41–49). -/
def flagFor (n index : Nat) : Nat :=
  if n = 1 then Nat.lor RecordFlags.ME RecordFlags.MB
  else if index = 0 ∧ 1 < n then RecordFlags.MB
  else if index = n - 1 then RecordFlags.ME
  else RecordFlags.emptySet

/-- The encode loop of `NdefMessage::to_buffer` (`message.rs` lines 39–51):
encode each record with its positional flags and concatenate, propagating
the first failure. -/
def toBufferGo (rs : List NdefRecord) (n index : Nat) : Except String (List Nat) :=
  match rs with
  | [] => .ok []
  | r :: rest => do
    let b ← r.toBuffer (flagFor n index)
    let tail ← toBufferGo rest n (index + 1)
    Except.ok (b ++ tail)

/-- `NdefMessage::to_buffer` (`message.rs` lines 38–53). -/
def NdefMessage.to_buffer (m : NdefMessage) : Except String (List Nat) :=
  toBufferGo m.records m.records.length 0

/-- The decode loop of `NdefMessage::decode` (`message.rs` lines 59–72),
with an explicit fuel so the recursion is structural.  One iteration:
decode a record; fail if its MB flag is set while records were already
accepted; push it; if the cursor has consumed the whole buffer, fail
unless its ME flag is set, else return; otherwise loop.  `none` means the
fuel ran out (shown elsewhere never to happen for fuel > buffer length). -/
def decodeLoop : Nat → List Nat → List NdefRecord → Option (Except String (List NdefRecord))
  | 0, _, _ => none
  | fuel + 1, data, records =>
    match NdefRecord.decode data with
    | .error e => some (.error e)
    | .ok (record, rest) =>
      if Nat.land record.flags RecordFlags.MB = RecordFlags.MB ∧ records.isEmpty = false then
        some (.error "record MB flag is set , but not first record")
      else if rest.isEmpty then
        if Nat.land record.flags RecordFlags.ME ≠ RecordFlags.ME then
          some (.error "record ME flag is not set")
        else some (.ok (records ++ [record]))
      else decodeLoop fuel rest (records ++ [record])

/-- `NdefMessage::decode` (`message.rs` lines 55–74).  Fuel `length + 1`
is always sufficient since every record decode consumes at least one
byte. -/
def NdefMessage.decode (data : List Nat) : Except String NdefMessage :=
  match decodeLoop (data.length + 1) data [] with
  | some (.ok records) => .ok ⟨records⟩
  | some (.error e) => .error e
  | none => .error "unreachable: fuel exhausted"

/-- `data` splits into consecutive record encodings that decode to exactly
the records `rs`, the last one consuming the final byte of `data`. -/
def ChunksDecode : List Nat → List NdefRecord → Prop
  | data, [] => data = []
  | data, r :: rs => ∃ rest, NdefRecord.decode data = .ok (r, rest) ∧ ChunksDecode rest rs

/-- The wire images of `rs` when encoded at positions `index, index+1, …`
of an `n`-record message. -/
def wireList (rs : List NdefRecord) (n index : Nat) : List NdefRecord :=
  match rs with
  | [] => []
  | r :: rest => wireRecord r (flagFor n index) :: wireList rest n (index + 1)

/-! ### Basic lemmas about the byte readers and the header byte -/

theorem readByte_nil : readByte [] = .error "DecodingError: unexpected end of buffer" := rfl

theorem readByte_cons (b : Nat) (l : List Nat) : readByte (b :: l) = .ok (b, l) := rfl

theorem readByte_ok_length {l rest : List Nat} {b : Nat} (h : readByte l = .ok (b, rest)) :
    rest.length < l.length := by
  cases l with
  | nil => simp [readByte] at h
  | cons x xs =>
    simp [readByte] at h
    simp [h.2.symm]

theorem readBytes_ok_length {n : Nat} {l bs rest : List Nat}
    (h : readBytes n l = .ok (bs, rest)) : rest.length ≤ l.length := by
  unfold readBytes at h
  split at h
  · simp at h
    rw [← h.2]
    simp
  · simp at h

theorem readBytes_exact (l rest : List Nat) : readBytes l.length (l ++ rest) = .ok (l, rest) := by
  unfold readBytes
  rw [if_pos (by simp)]
  simp

theorem TNF.toNat_lt (t : TNF) : t.toNat < 8 := by cases t <;> decide

theorem TNF.ofWire_toNat (t : TNF) : TNF.ofWire t.toNat = t := by cases t <;> rfl

theorem mkHeader_mod8 (flag : Nat) (sr il : Bool) (t : TNF) :
    mkHeader flag sr il t % 8 = t.toNat := by
  have h7 := (flag.testBit 7).toNat_le
  have h6 := (flag.testBit 6).toNat_le
  have h5 := (flag.testBit 5).toNat_le
  have hs := sr.toNat_le
  have hi := il.toNat_le
  have ht := t.toNat_lt
  unfold mkHeader
  omega

theorem mkHeader_testBit4 (flag : Nat) (sr il : Bool) (t : TNF) :
    (mkHeader flag sr il t).testBit 4 = sr := by
  have h7 := (flag.testBit 7).toNat_le
  have h6 := (flag.testBit 6).toNat_le
  have h5 := (flag.testBit 5).toNat_le
  have hi := il.toNat_le
  have ht := t.toNat_lt
  have key : mkHeader flag sr il t / 2 ^ 4 % 2 = sr.toNat := by
    have hs := sr.toNat_le
    unfold mkHeader
    omega
  rw [Nat.testBit_to_div_mod, key]
  cases sr <;> rfl

theorem mkHeader_testBit3 (flag : Nat) (sr il : Bool) (t : TNF) :
    (mkHeader flag sr il t).testBit 3 = il := by
  have key : mkHeader flag sr il t / 2 ^ 3 % 2 = il.toNat := by
    have h7 := (flag.testBit 7).toNat_le
    have h6 := (flag.testBit 6).toNat_le
    have h5 := (flag.testBit 5).toNat_le
    have hs := sr.toNat_le
    have hi := il.toNat_le
    have ht := t.toNat_lt
    unfold mkHeader
    omega
  rw [Nat.testBit_to_div_mod, key]
  cases il <;> rfl

theorem mkHeader_testBit7 (flag : Nat) (sr il : Bool) (t : TNF) :
    (mkHeader flag sr il t).testBit 7 = flag.testBit 7 := by
  have key : mkHeader flag sr il t / 2 ^ 7 % 2 = (flag.testBit 7).toNat := by
    have h7 := (flag.testBit 7).toNat_le
    have h6 := (flag.testBit 6).toNat_le
    have h5 := (flag.testBit 5).toNat_le
    have hs := sr.toNat_le
    have hi := il.toNat_le
    have ht := t.toNat_lt
    unfold mkHeader
    omega
  rw [Nat.testBit_to_div_mod, key]
  cases flag.testBit 7 <;> rfl

theorem mkHeader_testBit6 (flag : Nat) (sr il : Bool) (t : TNF) :
    (mkHeader flag sr il t).testBit 6 = flag.testBit 6 := by
  have key : mkHeader flag sr il t / 2 ^ 6 % 2 = (flag.testBit 6).toNat := by
    have h7 := (flag.testBit 7).toNat_le
    have h6 := (flag.testBit 6).toNat_le
    have h5 := (flag.testBit 5).toNat_le
    have hs := sr.toNat_le
    have hi := il.toNat_le
    have ht := t.toNat_lt
    unfold mkHeader
    omega
  rw [Nat.testBit_to_div_mod, key]
  cases flag.testBit 6 <;> rfl

theorem land_pow_eq_iff_testBit (h : Nat) (i : Nat) :
    Nat.land h (2 ^ i) = 2 ^ i ↔ h.testBit i = true := by
  have : Nat.land h (2 ^ i) = h &&& 2 ^ i := rfl
  rw [this, Nat.and_two_pow]
  cases hb : h.testBit i <;> simp [Bool.toNat]
  positivity

theorem readPayloadLen_ok_length {header : Nat} {l rest : List Nat} {n : Nat}
    (h : readPayloadLen header l = .ok (n, rest)) : rest.length < l.length := by
  unfold readPayloadLen at h
  split at h
  · exact readByte_ok_length h
  · split at h
    · simp at h
      rw [← h.2]
      simp
      omega
    · simp at h

theorem readIdLen_ok_length {header : Nat} {l rest : List Nat} {n : Option Nat}
    (h : readIdLen header l = .ok (n, rest)) : rest.length ≤ l.length := by
  unfold readIdLen at h
  split at h
  · split at h
    · rename_i b r heq
      simp at h
      rw [← h.2]
      exact le_of_lt (readByte_ok_length heq)
    · simp at h
  · simp at h
    simp [h.2.symm]

theorem readOptBytes_ok_length {n : Option Nat} {l rest : List Nat} {bs : Option (List Nat)}
    (h : readOptBytes n l = .ok (bs, rest)) : rest.length ≤ l.length := by
  unfold readOptBytes at h
  split at h
  · split at h
    · rename_i b r heq
      simp at h
      rw [← h.2]
      exact readBytes_ok_length heq
    · simp at h
  · simp at h
    simp [h.2.symm]

/-- A successful record decode strictly advances the cursor: the remaining
buffer is strictly shorter than the input. -/
theorem NdefRecord.decode_length_lt {data rest : List Nat} {r : NdefRecord}
    (h : NdefRecord.decode data = .ok (r, rest)) : rest.length < data.length := by
  unfold NdefRecord.decode at h
  simp only [bind, Except.bind] at h
  split at h
  · exact absurd h (by simp)
  · rename_i p1 heq1
    obtain ⟨header, r1⟩ := p1
    split at h
    · exact absurd h (by simp)
    · rename_i p2 heq2
      obtain ⟨typeLen, r2⟩ := p2
      split at h
      · exact absurd h (by simp)
      · rename_i p3 heq3
        obtain ⟨payloadLen, r3⟩ := p3
        split at h
        · exact absurd h (by simp)
        · rename_i p4 heq4
          obtain ⟨idLen, r4⟩ := p4
          split at h
          · exact absurd h (by simp)
          · rename_i p5 heq5
            obtain ⟨typeBytes, r5⟩ := p5
            split at h
            · exact absurd h (by simp)
            · rename_i p6 heq6
              obtain ⟨idBytes, r6⟩ := p6
              split at h
              · exact absurd h (by simp)
              · rename_i p7 heq7
                obtain ⟨payloadBytes, r7⟩ := p7
                simp only [Except.ok.injEq, Prod.mk.injEq] at h
                have l1 := readByte_ok_length heq1
                have l2 := readByte_ok_length heq2
                have l3 := readPayloadLen_ok_length heq3
                have l4 := readIdLen_ok_length heq4
                have l5 := readBytes_ok_length heq5
                have l6 := readOptBytes_ok_length heq6
                have l7 := readBytes_ok_length heq7
                simp only at l1 l2 l3 l4 l5 l6 l7
                have hr : rest = r7 := h.2.symm
                subst hr
                omega

/-- Decoding a record from the empty buffer fails. -/
theorem NdefRecord.decode_nil :
    NdefRecord.decode [] = .error "DecodingError: unexpected end of buffer" := rfl

theorem readPayloadLen_sr {header : Nat} (hsr : header.testBit 4 = true) (n : Nat)
    (rest : List Nat) : readPayloadLen header (n :: rest) = .ok (n, rest) := by
  unfold readPayloadLen
  rw [if_pos hsr]
  rfl

theorem readPayloadLen_u32be {header : Nat} (hsr : header.testBit 4 = false) (n : Nat)
    (hn : n ≤ 4294967295) (rest : List Nat) :
    readPayloadLen header (u32be n ++ rest) = .ok (n, rest) := by
  unfold readPayloadLen u32be
  rw [if_neg (by simp [hsr])]
  simp only [List.cons_append, List.nil_append, Except.ok.injEq, Prod.mk.injEq]
  exact ⟨by omega, trivial⟩

theorem readIdLen_il {header : Nat} (hil : header.testBit 3 = true) (n : Nat)
    (rest : List Nat) : readIdLen header (n :: rest) = .ok (some n, rest) := by
  unfold readIdLen
  rw [if_pos hil]
  rfl

theorem readIdLen_no_il {header : Nat} (hil : header.testBit 3 = false) (rest : List Nat) :
    readIdLen header rest = .ok (none, rest) := by
  unfold readIdLen
  rw [if_neg (by simp [hil])]

theorem readOptBytes_some (l rest : List Nat) :
    readOptBytes (some l.length) (l ++ rest) = .ok (some l, rest) := by
  simp only [readOptBytes]
  rw [readBytes_exact]

theorem readOptBytes_none (rest : List Nat) : readOptBytes none rest = .ok (none, rest) := rfl

/-- Record-level round trip: a valid record encodes successfully (with any
flag byte), the buffer is nonempty, and decoding it (with anything after)
returns its wire image and consumes exactly the encoded bytes. -/
theorem NdefRecord.toBuffer_decode (r : NdefRecord) (flag : Nat) (hv : r.valid)
    (extra : List Nat) :
    ∃ buf, r.toBuffer flag = .ok buf ∧ buf ≠ [] ∧
      NdefRecord.decode (buf ++ extra) = .ok (wireRecord r flag, extra) := by
  obtain ⟨ht, hi, hp⟩ := hv
  cases hid : r.id with
  | none =>
    by_cases hsr : r.payload.length ≤ 255
    · refine ⟨mkHeader flag true false r.tnf :: r.record_type.length ::
        r.payload.length :: (r.record_type ++ r.payload), ?_, by simp, ?_⟩
      · unfold NdefRecord.toBuffer
        rw [if_neg (by omega), if_neg (by simp [hid]), if_neg (by omega)]
        simp [hid, hsr]
      · simp only [NdefRecord.decode, bind, Except.bind, List.cons_append, List.append_assoc,
          readByte_cons, readPayloadLen_sr (mkHeader_testBit4 flag true false r.tnf),
          readIdLen_no_il (mkHeader_testBit3 flag true false r.tnf), readBytes_exact,
          readOptBytes_none]
        simp [wireRecord, mkHeader_mod8, TNF.ofWire_toNat, hid, hsr]
    · refine ⟨mkHeader flag false false r.tnf :: r.record_type.length ::
        (u32be r.payload.length ++ (r.record_type ++ r.payload)), ?_, by simp, ?_⟩
      · unfold NdefRecord.toBuffer
        rw [if_neg (by omega), if_neg (by simp [hid]), if_neg (by omega)]
        simp [hid, hsr]
      · simp only [NdefRecord.decode, bind, Except.bind, List.cons_append, List.append_assoc,
          readByte_cons, readPayloadLen_u32be (mkHeader_testBit4 flag false false r.tnf)
            r.payload.length hp,
          readIdLen_no_il (mkHeader_testBit3 flag false false r.tnf), readBytes_exact,
          readOptBytes_none]
        simp [wireRecord, mkHeader_mod8, TNF.ofWire_toNat, hid, hsr]
  | some i =>
    have hi' : i.length ≤ 255 := by rw [hid] at hi; simpa using hi
    by_cases hsr : r.payload.length ≤ 255
    · refine ⟨mkHeader flag true true r.tnf :: r.record_type.length ::
        r.payload.length :: i.length :: (r.record_type ++ (i ++ r.payload)), ?_, by simp, ?_⟩
      · unfold NdefRecord.toBuffer
        rw [if_neg (by omega), if_neg (by simp [hid]; omega), if_neg (by omega)]
        simp [hid, hsr]
      · simp only [NdefRecord.decode, bind, Except.bind, List.cons_append, List.append_assoc,
          readByte_cons, readPayloadLen_sr (mkHeader_testBit4 flag true true r.tnf),
          readIdLen_il (mkHeader_testBit3 flag true true r.tnf), readBytes_exact,
          readOptBytes_some]
        simp [wireRecord, mkHeader_mod8, TNF.ofWire_toNat, hid, hsr]
    · refine ⟨mkHeader flag false true r.tnf :: r.record_type.length ::
        (u32be r.payload.length ++ (i.length :: (r.record_type ++ (i ++ r.payload)))), ?_,
        by simp, ?_⟩
      · unfold NdefRecord.toBuffer
        rw [if_neg (by omega), if_neg (by simp [hid]; omega), if_neg (by omega)]
        simp [hid, hsr]
      · simp only [NdefRecord.decode, bind, Except.bind, List.cons_append, List.append_assoc,
          readByte_cons, readPayloadLen_u32be (mkHeader_testBit4 flag false true r.tnf)
            r.payload.length hp,
          readIdLen_il (mkHeader_testBit3 flag false true r.tnf), readBytes_exact,
          readOptBytes_some]
        simp [wireRecord, mkHeader_mod8, TNF.ofWire_toNat, hid, hsr]

/-- Running the decode loop over a buffer made of chunks decoding to
`r0 :: rs`: when no record after position 0 (relative to an already
nonempty accumulator, also position 0) carries MB, the loop returns the
accumulated records iff the last record carries ME, and the missing-ME
framing error otherwise. -/
theorem decodeLoop_spec (rs : List NdefRecord) :
    ∀ (r0 : NdefRecord) (data : List Nat) (acc : List NdefRecord) (fuel : Nat),
      ChunksDecode data (r0 :: rs) → data.length < fuel →
      (acc = [] ∨ Nat.land r0.flags RecordFlags.MB ≠ RecordFlags.MB) →
      (∀ r ∈ rs, Nat.land r.flags RecordFlags.MB ≠ RecordFlags.MB) →
      decodeLoop fuel data acc =
        some (if Nat.land (List.getLast (r0 :: rs) (List.cons_ne_nil r0 rs)).flags
                  RecordFlags.ME = RecordFlags.ME
              then .ok (acc ++ (r0 :: rs))
              else .error "record ME flag is not set") := by
  induction rs with
  | nil =>
    intro r0 data acc fuel hch hfuel hmb0 hmbs
    obtain ⟨rest, hdec, hrest⟩ := hch
    have hrest' : rest = [] := hrest
    subst hrest'
    cases fuel with
    | zero => exact absurd hfuel (by omega)
    | succ f =>
      have hnotmb : ¬(Nat.land r0.flags RecordFlags.MB = RecordFlags.MB ∧
          acc.isEmpty = false) := by
        rcases hmb0 with h | h
        · subst h
          simp
        · intro hc
          exact h hc.1
      simp only [decodeLoop, hdec, if_neg hnotmb, List.isEmpty_nil, if_true]
      by_cases hme : Nat.land r0.flags RecordFlags.ME = RecordFlags.ME <;>
        simp [hme, List.getLast_singleton]
  | cons r1 rs' ih =>
    intro r0 data acc fuel hch hfuel hmb0 hmbs
    obtain ⟨rest, hdec, hrest⟩ := hch
    have hrestne : rest ≠ [] := by
      intro h
      subst h
      obtain ⟨rest', hdec', _⟩ := hrest
      rw [NdefRecord.decode_nil] at hdec'
      exact absurd hdec' (by simp)
    cases fuel with
    | zero => exact absurd hfuel (by omega)
    | succ f =>
      have hnotmb : ¬(Nat.land r0.flags RecordFlags.MB = RecordFlags.MB ∧
          acc.isEmpty = false) := by
        rcases hmb0 with h | h
        · subst h
          simp
        · intro hc
          exact h hc.1
      have hne : rest.isEmpty = false := by
        cases rest with
        | nil => exact absurd rfl hrestne
        | cons a l => rfl
      have hlen := NdefRecord.decode_length_lt hdec
      simp only [decodeLoop, hdec, if_neg hnotmb, hne, Bool.false_eq_true, if_false]
      rw [ih r1 rest (acc ++ [r0]) f hrest (by omega)
        (Or.inr (hmbs r1 (by simp))) (fun r hr => hmbs r (by simp [hr]))]
      by_cases hme : Nat.land (List.getLast (r1 :: rs') (List.cons_ne_nil r1 rs')).flags
          RecordFlags.ME = RecordFlags.ME
      · rw [if_pos hme, if_pos (by rw [List.getLast_cons (List.cons_ne_nil r1 rs')]; exact hme)]
        simp
      · rw [if_neg hme, if_neg (by rw [List.getLast_cons (List.cons_ne_nil r1 rs')]; exact hme)]

/-- Running the decode loop over a buffer made of chunks decoding to `rs`:
if the accumulator is already nonempty and some chunk record carries MB,
or some chunk record after the first carries MB, the loop fails with the
early-MB framing error. -/
theorem decodeLoop_mb (rs : List NdefRecord) :
    ∀ (data : List Nat) (acc : List NdefRecord) (fuel : Nat),
      ChunksDecode data rs → data.length < fuel →
      ((acc ≠ [] ∧ ∃ r ∈ rs, Nat.land r.flags RecordFlags.MB = RecordFlags.MB) ∨
        (∃ r ∈ rs.tail, Nat.land r.flags RecordFlags.MB = RecordFlags.MB)) →
      decodeLoop fuel data acc =
        some (.error "record MB flag is set , but not first record") := by
  induction rs with
  | nil =>
    intro data acc fuel hch hfuel hcond
    rcases hcond with ⟨_, r, hr, _⟩ | ⟨r, hr, _⟩ <;> simp at hr
  | cons r0 rs' ih =>
    intro data acc fuel hch hfuel hcond
    obtain ⟨rest, hdec, hrest⟩ := hch
    cases fuel with
    | zero => exact absurd hfuel (by omega)
    | succ f =>
      have hlen := NdefRecord.decode_length_lt hdec
      by_cases hmb : Nat.land r0.flags RecordFlags.MB = RecordFlags.MB ∧ acc.isEmpty = false
      · simp only [decodeLoop, hdec, if_pos hmb]
      · -- the first chunk record passes the check; MB must be found further on
        have htail : ∃ r ∈ rs', Nat.land r.flags RecordFlags.MB = RecordFlags.MB := by
          rcases hcond with ⟨hacc, r, hr, hrmb⟩ | ⟨r, hr, hrmb⟩
          · rcases List.mem_cons.mp hr with h | h
            · exfalso
              apply hmb
              refine ⟨h ▸ hrmb, ?_⟩
              cases acc with
              | nil => exact absurd rfl hacc
              | cons a l => rfl
            · exact ⟨r, h, hrmb⟩
          · exact ⟨r, hr, hrmb⟩
        have hrestne : rest ≠ [] := by
          intro h
          subst h
          obtain ⟨r, hr, _⟩ := htail
          cases rs' with
          | nil => simp at hr
          | cons a l =>
            obtain ⟨rest', hdec', _⟩ := hrest
            rw [NdefRecord.decode_nil] at hdec'
            exact absurd hdec' (by simp)
        have hne : rest.isEmpty = false := by
          cases rest with
          | nil => exact absurd rfl hrestne
          | cons a l => rfl
        simp only [decodeLoop, hdec, if_neg hmb, hne, Bool.false_eq_true, if_false]
        exact ih rest (acc ++ [r0]) f hrest (by omega)
          (Or.inl ⟨by simp, htail⟩)

/-- With fuel exceeding the buffer length the decode loop always delivers
a result: every iteration strictly shortens the remaining buffer. -/
theorem decodeLoop_isSome :
    ∀ (fuel : Nat) (data : List Nat) (acc : List NdefRecord), data.length < fuel →
      (decodeLoop fuel data acc).isSome = true := by
  intro fuel
  induction fuel with
  | zero =>
    intro data acc h
    exact absurd h (by omega)
  | succ f ih =>
    intro data acc h
    simp only [decodeLoop]
    match hdec : NdefRecord.decode data with
    | .error e => simp
    | .ok (record, rest) =>
      have hlen := NdefRecord.decode_length_lt hdec
      simp only
      split
      · simp
      · split
        · split <;> simp
        · exact ih rest (acc ++ [record]) (by omega)

/-- Soundness of a successful decode loop run: the result extends the
accumulator with a nonempty list of records to which the buffer's chunks
decode in full (the loop exits exactly when the whole input is consumed). -/
theorem decodeLoop_ok_chunks :
    ∀ (fuel : Nat) (data : List Nat) (acc out : List NdefRecord),
      decodeLoop fuel data acc = some (.ok out) →
      ∃ rs, out = acc ++ rs ∧ rs ≠ [] ∧ ChunksDecode data rs := by
  intro fuel
  induction fuel with
  | zero =>
    intro data acc out h
    simp [decodeLoop] at h
  | succ f ih =>
    intro data acc out h
    simp only [decodeLoop] at h
    match hdec : NdefRecord.decode data with
    | .error e =>
      rw [hdec] at h
      simp at h
    | .ok (record, rest) =>
      rw [hdec] at h
      simp only at h
      split at h
      · simp at h
      · split at h
        · split at h
          · simp at h
          · simp only [Option.some.injEq, Except.ok.injEq] at h
            refine ⟨[record], h.symm, by simp, rest, hdec, ?_⟩
            rename_i hempty _
            simpa using hempty
        · obtain ⟨rs, hout, hne, hch⟩ := ih rest (acc ++ [record]) out h
          exact ⟨record :: rs, by simp [hout], by simp,
            rest, hdec, hch⟩

/-- Encoding a list of valid records (as positions `i, i+1, …` of an
`n`-record message) succeeds and yields a buffer whose chunks decode to
exactly the corresponding wire records. -/
theorem toBufferGo_chunks (rs : List NdefRecord) :
    ∀ (n i : Nat), (∀ r ∈ rs, r.valid) →
      ∃ buf, toBufferGo rs n i = .ok buf ∧ ChunksDecode buf (wireList rs n i) := by
  induction rs with
  | nil =>
    intro n i _
    exact ⟨[], rfl, rfl⟩
  | cons r rest ih =>
    intro n i hv
    obtain ⟨tailbuf, htail, hch⟩ := ih n (i + 1) (fun x hx => hv x (by simp [hx]))
    obtain ⟨buf, henc, _, hdec⟩ :=
      NdefRecord.toBuffer_decode r (flagFor n i) (hv r (by simp)) tailbuf
    refine ⟨buf ++ tailbuf, ?_, ?_⟩
    · simp only [toBufferGo, bind, Except.bind, henc, htail]
    · exact ⟨tailbuf, hdec, hch⟩

/-- If every record before position `i + pre.length` encodes successfully
and the record there fails, the encode loop propagates that error. -/
theorem toBufferGo_error (pre : List NdefRecord) :
    ∀ (r : NdefRecord) (post : List NdefRecord) (n i : Nat) (e : String),
      (∀ p ∈ List.enumFrom i pre, ∃ b, (Prod.snd p).toBuffer (flagFor n (Prod.fst p)) = .ok b) →
      r.toBuffer (flagFor n (i + pre.length)) = .error e →
      toBufferGo (pre ++ r :: post) n i = .error e := by
  induction pre with
  | nil =>
    intro r post n i e _ herr
    simp only [List.nil_append, toBufferGo, bind, Except.bind]
    rw [show i + List.length [] = i by simp] at herr
    rw [herr]
  | cons p pre' ih =>
    intro r post n i e hok herr
    obtain ⟨b, hb⟩ := hok (i, p) (by simp [List.enumFrom])
    have htail : toBufferGo (pre' ++ r :: post) n (i + 1) = .error e :=
      ih r post n (i + 1) e
        (fun q hq => hok q (by simp [List.enumFrom, hq]))
        (by rw [show i + 1 + pre'.length = i + (p :: pre').length from by
          simp only [List.length_cons]; omega]; exact herr)
    simp only [List.cons_append, toBufferGo, bind, Except.bind, List.append_eq, hb, htail]

/-- When every record encodes successfully, the encode loop returns the
concatenation of the individual buffers, in sequence order. -/
theorem toBufferGo_join (rs : List NdefRecord) :
    ∀ (n i : Nat) (bufs : List (List Nat)),
      List.Forall₂ (fun p b => (Prod.snd p).toBuffer (flagFor n (Prod.fst p)) = .ok b)
        (List.enumFrom i rs) bufs →
      toBufferGo rs n i = .ok bufs.flatten := by
  induction rs with
  | nil =>
    intro n i bufs h
    cases h
    rfl
  | cons r rest ih =>
    intro n i bufs h
    simp only [List.enumFrom] at h
    cases h with
    | cons hb hrest =>
      rename_i b bufs'
      simp only [toBufferGo, bind, Except.bind, hb, ih n (i + 1) bufs' hrest]
      rfl

theorem wireList_ne_nil {rs : List NdefRecord} (h : rs ≠ []) (n i : Nat) :
    wireList rs n i ≠ [] := by
  cases rs with
  | nil => exact absurd rfl h
  | cons r rest => simp [wireList]

theorem wireList_getLastQ (rs : List NdefRecord) :
    ∀ (n i : Nat), (wireList rs n i).getLast? =
      (List.getLast? rs).map (fun r => wireRecord r (flagFor n (i + rs.length - 1))) := by
  induction rs with
  | nil =>
    intro n i
    rfl
  | cons r rest ih =>
    intro n i
    cases rest with
    | nil => rfl
    | cons a l =>
      rw [show wireList (r :: a :: l) n i = wireRecord r (flagFor n i) ::
        wireRecord a (flagFor n (i + 1)) :: wireList l n (i + 1 + 1) from rfl]
      rw [List.getLast?_cons_cons]
      rw [show wireRecord a (flagFor n (i + 1)) :: wireList l n (i + 1 + 1) =
        wireList (a :: l) n (i + 1) from rfl]
      rw [ih n (i + 1), List.getLast?_cons_cons]
      rw [show i + 1 + (a :: l).length - 1 = i + (r :: a :: l).length - 1 from by
        simp only [List.length_cons]; omega]

theorem wireList_mem {w : NdefRecord} (rs : List NdefRecord) :
    ∀ (n i : Nat), w ∈ wireList rs n i →
      ∃ k r, i ≤ k ∧ k < i + rs.length ∧ r ∈ rs ∧ w = wireRecord r (flagFor n k) := by
  induction rs with
  | nil =>
    intro n i h
    simp [wireList] at h
  | cons r rest ih =>
    intro n i h
    rw [show wireList (r :: rest) n i =
      wireRecord r (flagFor n i) :: wireList rest n (i + 1) from rfl] at h
    rcases List.mem_cons.mp h with h | h
    · exact ⟨i, r, le_refl i, by simp, by simp, h⟩
    · obtain ⟨k, r', hk1, hk2, hmem, hw⟩ := ih n (i + 1) h
      exact ⟨k, r', by omega, by simp only [List.length_cons]; omega, by simp [hmem], hw⟩

/-- The flag byte handed to any record after the first never has bit 7
(MB) set. -/
theorem flagFor_tail_no_MB {n k : Nat} (h1 : 1 ≤ k) (h2 : k < n) :
    (flagFor n k).testBit 7 = false := by
  unfold flagFor
  rw [if_neg (by omega), if_neg (by omega)]
  by_cases hk : k = n - 1
  · rw [if_pos hk]
    decide
  · rw [if_neg hk]
    decide

/-- The flag byte handed to the last record always has bit 6 (ME) set. -/
theorem flagFor_last_ME {n : Nat} (h : 1 ≤ n) : (flagFor n (n - 1)).testBit 6 = true := by
  unfold flagFor
  by_cases h1 : n = 1
  · rw [if_pos h1]
    decide
  · rw [if_neg h1, if_neg (by omega), if_pos rfl]
    decide

/-- The first record of a multi-record message gets exactly MB. -/
theorem flagFor_first {n : Nat} (h : 1 < n) : flagFor n 0 = RecordFlags.MB := by
  unfold flagFor
  rw [if_neg (by omega), if_pos ⟨rfl, h⟩]

/-- The decoded wire image of a record encoded with `flag` carries MB iff
`flag` has bit 7. -/
theorem wireRecord_MB (r : NdefRecord) (flag : Nat) :
    (Nat.land (wireRecord r flag).flags RecordFlags.MB = RecordFlags.MB) ↔
      flag.testBit 7 = true := by
  have h := land_pow_eq_iff_testBit
    (mkHeader flag (decide (r.payload.length ≤ 255)) r.id.isSome r.tnf) 7
  norm_num at h
  rw [show (wireRecord r flag).flags =
    mkHeader flag (decide (r.payload.length ≤ 255)) r.id.isSome r.tnf from rfl]
  rw [show RecordFlags.MB = 128 from rfl]
  rw [h, mkHeader_testBit7]

/-- The decoded wire image of a record encoded with `flag` carries ME iff
`flag` has bit 6. -/
theorem wireRecord_ME (r : NdefRecord) (flag : Nat) :
    (Nat.land (wireRecord r flag).flags RecordFlags.ME = RecordFlags.ME) ↔
      flag.testBit 6 = true := by
  have h := land_pow_eq_iff_testBit
    (mkHeader flag (decide (r.payload.length ≤ 255)) r.id.isSome r.tnf) 6
  norm_num at h
  rw [show (wireRecord r flag).flags =
    mkHeader flag (decide (r.payload.length ≤ 255)) r.id.isSome r.tnf from rfl]
  rw [show RecordFlags.ME = 64 from rfl]
  rw [h, mkHeader_testBit6]

theorem wireList_forall₂ (rs : List NdefRecord) :
    ∀ (n i : Nat), List.Forall₂ NdefRecord.sameContent rs (wireList rs n i) := by
  induction rs with
  | nil =>
    intro n i
    exact List.Forall₂.nil
  | cons r rest ih =>
    intro n i
    exact List.Forall₂.cons ⟨rfl, rfl, rfl, rfl⟩ (ih n (i + 1))

/-- `NdefMessage::decode` on a buffer whose chunks decode to `r0 :: rs`:
when no record after the first carries MB and the last record carries ME,
decoding succeeds with exactly those records. -/
theorem decode_of_chunks (data : List Nat) (r0 : NdefRecord) (rs : List NdefRecord)
    (h : ChunksDecode data (r0 :: rs))
    (hmb : ∀ r ∈ rs, Nat.land r.flags RecordFlags.MB ≠ RecordFlags.MB)
    (hme : Nat.land ((r0 :: rs).getLast (List.cons_ne_nil r0 rs)).flags RecordFlags.ME =
      RecordFlags.ME) :
    NdefMessage.decode data = .ok ⟨r0 :: rs⟩ := by
  unfold NdefMessage.decode
  rw [decodeLoop_spec rs r0 data [] (data.length + 1) h (by omega) (Or.inl rfl) hmb,
    if_pos hme]
  rfl

/-- `NdefMessage::decode` on a buffer whose chunks decode to `r0 :: rs`:
when no record after the first carries MB and the last record lacks ME,
decoding fails with the missing-ME framing error. -/
theorem decode_of_chunks_missing_me (data : List Nat) (r0 : NdefRecord)
    (rs : List NdefRecord) (h : ChunksDecode data (r0 :: rs))
    (hmb : ∀ r ∈ rs, Nat.land r.flags RecordFlags.MB ≠ RecordFlags.MB)
    (hme : ¬ Nat.land ((r0 :: rs).getLast (List.cons_ne_nil r0 rs)).flags RecordFlags.ME =
      RecordFlags.ME) :
    NdefMessage.decode data = .error "record ME flag is not set" := by
  unfold NdefMessage.decode
  rw [decodeLoop_spec rs r0 data [] (data.length + 1) h (by omega) (Or.inl rfl) hmb,
    if_neg hme]

/-- `NdefMessage::decode` on a buffer whose chunks decode to `rs`: when some
record after the first carries MB, decoding fails with the early-MB
framing error. -/
theorem decode_of_chunks_mb (data : List Nat) (rs : List NdefRecord) (r : NdefRecord)
    (hr : r ∈ rs.tail) (hrmb : Nat.land r.flags RecordFlags.MB = RecordFlags.MB)
    (h : ChunksDecode data rs) :
    NdefMessage.decode data = .error "record MB flag is set , but not first record" := by
  unfold NdefMessage.decode
  rw [decodeLoop_mb rs data [] (data.length + 1) h (by omega) (Or.inr ⟨r, hr, hrmb⟩)]

/-- C1: Round trip — for every message built from 1 or more valid records,
`NdefMessage::decode (m.to_buffer())` succeeds and yields a message equal
to `m`: the same record count and, position by position, the same tnf,
record type, id and payload (`List.Forall₂ sameContent` captures both). -/
theorem C1_round_trip (m : NdefMessage) (hne : m.records ≠ [])
    (hv : ∀ r ∈ m.records, r.valid) :
    ∃ buf rs, m.to_buffer = .ok buf ∧ NdefMessage.decode buf = .ok ⟨rs⟩ ∧
      List.Forall₂ NdefRecord.sameContent m.records rs := by
  unfold NdefMessage.to_buffer
  cases hr : m.records with
  | nil => exact absurd hr hne
  | cons r0 rest =>
    rw [hr] at hv
    obtain ⟨buf, henc, hch⟩ := toBufferGo_chunks (r0 :: rest) (r0 :: rest).length 0 hv
    refine ⟨buf, wireList (r0 :: rest) (r0 :: rest).length 0, henc, ?_,
      wireList_forall₂ (r0 :: rest) (r0 :: rest).length 0⟩
    have hlen : (r0 :: rest).length = rest.length + 1 := by simp
    rw [show wireList (r0 :: rest) (r0 :: rest).length 0 =
      wireRecord r0 (flagFor (r0 :: rest).length 0) ::
        wireList rest (r0 :: rest).length 1 from rfl] at hch
    have hmb : ∀ w ∈ wireList rest (r0 :: rest).length 1,
        Nat.land w.flags RecordFlags.MB ≠ RecordFlags.MB := by
      intro w hw
      obtain ⟨k, r', hk1, hk2, _, hwr⟩ := wireList_mem rest (r0 :: rest).length 1 hw
      rw [hwr]
      intro hcontra
      rw [wireRecord_MB, flagFor_tail_no_MB hk1 (by omega)] at hcontra
      exact absurd hcontra (by simp)
    have hql := wireList_getLastQ (r0 :: rest) (r0 :: rest).length 0
    rw [List.getLast?_eq_getLast (r0 :: rest) (List.cons_ne_nil r0 rest),
      List.getLast?_eq_getLast (wireList (r0 :: rest) (r0 :: rest).length 0)
        (wireList_ne_nil (List.cons_ne_nil r0 rest) (r0 :: rest).length 0)] at hql
    simp only [Option.map_some', Option.some.injEq] at hql
    have hlast : Nat.land (wireRecord ((r0 :: rest).getLast (List.cons_ne_nil r0 rest))
        (flagFor (r0 :: rest).length (0 + (r0 :: rest).length - 1))).flags
        RecordFlags.ME = RecordFlags.ME := by
      rw [wireRecord_ME,
        show 0 + (r0 :: rest).length - 1 = (r0 :: rest).length - 1 from by omega]
      exact flagFor_last_ME (by simp)
    rw [← hql] at hlast
    exact decode_of_chunks buf (wireRecord r0 (flagFor (r0 :: rest).length 0))
      (wireList rest (r0 :: rest).length 1) hch hmb hlast

/-- C2: Encode flag assignment — `NdefMessage::to_buffer` hands the record
encoder at index `i` of an `n`-record message exactly: MB ∪ ME when
`n = 1`; MB alone at index 0 when `n > 1`; ME alone at index `n−1` when
`n > 1`; and the empty flag set (no CF) for interior records.  `flagFor`
is the flag computation of `message.rs` lines 41–49, applied by
`to_buffer` to each index in turn. -/
theorem C2_flag_assignment (n i : Nat) (hi : i < n) :
    (n = 1 → flagFor n i = Nat.lor RecordFlags.MB RecordFlags.ME) ∧
    (1 < n → i = 0 → flagFor n i = RecordFlags.MB) ∧
    (1 < n → i = n - 1 → flagFor n i = RecordFlags.ME) ∧
    (1 < n → 0 < i → i < n - 1 → flagFor n i = RecordFlags.emptySet) := by
  refine ⟨?_, ?_, ?_, ?_⟩
  · intro h
    subst h
    unfold flagFor
    rw [if_pos rfl]
    decide
  · intro h hi0
    subst hi0
    exact flagFor_first h
  · intro h hlast
    subst hlast
    unfold flagFor
    rw [if_neg (by omega), if_neg (by omega), if_pos rfl]
  · intro h h0 hlt
    unfold flagFor
    rw [if_neg (by omega), if_neg (by omega), if_neg (by omega)]

theorem C2_flag_assignment_witness :
    flagFor 3 1 = RecordFlags.emptySet ∧ flagFor 3 2 = RecordFlags.ME ∧
    flagFor 3 0 = RecordFlags.MB ∧ flagFor 1 0 = Nat.lor RecordFlags.MB RecordFlags.ME :=
  ⟨(C2_flag_assignment 3 1 (by decide)).2.2.2 (by decide) (by decide) (by decide),
   (C2_flag_assignment 3 2 (by decide)).2.2.1 (by decide) rfl,
   (C2_flag_assignment 3 0 (by decide)).2.1 (by decide) rfl,
   (C2_flag_assignment 1 0 (by decide)).1 rfl⟩

/-- C3: Decode rejects early MB — if the record at position `k ≥ 1` of the
buffer's chunks carries MB, `NdefMessage::decode` fails with the early-MB
framing error. -/
theorem C3_decode_rejects_early_MB (data : List Nat) (rs : List NdefRecord) (k : Nat)
    (hk : k < rs.length) (h1 : 1 ≤ k) (h : ChunksDecode data rs)
    (hmb : Nat.land (rs.get ⟨k, hk⟩).flags RecordFlags.MB = RecordFlags.MB) :
    NdefMessage.decode data = .error "record MB flag is set , but not first record" := by
  have hmem : rs.get ⟨k, hk⟩ ∈ rs.tail := by
    cases rs with
    | nil => simp at hk
    | cons a l =>
      obtain ⟨k', rfl⟩ : ∃ k', k = k' + 1 := ⟨k - 1, by omega⟩
      simp only [List.tail_cons]
      have hk'' : k' < l.length := by simp at hk; omega
      have : (a :: l).get ⟨k' + 1, hk⟩ = l.get ⟨k', hk''⟩ := rfl
      rw [this]
      exact List.get_mem l k' hk''
  exact decode_of_chunks_mb data rs _ hmem hmb h

theorem C3_witness :
    NdefMessage.decode [144, 0, 0, 208, 0, 0] =
      .error "record MB flag is set , but not first record" :=
  C3_decode_rejects_early_MB [144, 0, 0, 208, 0, 0]
    [⟨144, TNF.Empty, [], none, []⟩, ⟨208, TNF.Empty, [], none, []⟩] 1
    (by decide) (by decide) ⟨[208, 0, 0], rfl, [], rfl, rfl⟩ (by decide)

/-- C4: Decode rejects missing ME — when the buffer's chunks decode in
full (the cursor consumes the entire buffer at the final record) and the
final record's ME flag is not set, `NdefMessage::decode` fails with a
framing error: the missing-ME error, or the early-MB error when some
record after the first also carries MB. -/
theorem C4_decode_rejects_missing_ME (data : List Nat) (r0 : NdefRecord)
    (rs : List NdefRecord) (h : ChunksDecode data (r0 :: rs))
    (hme : Nat.land ((r0 :: rs).getLast (List.cons_ne_nil r0 rs)).flags RecordFlags.ME ≠
      RecordFlags.ME) :
    NdefMessage.decode data = .error "record ME flag is not set" ∨
    NdefMessage.decode data = .error "record MB flag is set , but not first record" := by
  by_cases hmb : ∃ r ∈ rs, Nat.land r.flags RecordFlags.MB = RecordFlags.MB
  · obtain ⟨r, hr, hrmb⟩ := hmb
    exact Or.inr (decode_of_chunks_mb data (r0 :: rs) r (by simpa using hr) hrmb h)
  · push_neg at hmb
    exact Or.inl (decode_of_chunks_missing_me data r0 rs h hmb hme)

theorem C4_witness :
    NdefMessage.decode [144, 0, 0] = .error "record ME flag is not set" ∨
    NdefMessage.decode [144, 0, 0] = .error "record MB flag is set , but not first record" :=
  C4_decode_rejects_missing_ME [144, 0, 0] ⟨144, TNF.Empty, [], none, []⟩ []
    ⟨[], rfl, rfl⟩ (by decide)

/-- C5: Asymmetric MB leniency — `NdefMessage::decode` never requires the
first record to carry MB: a buffer whose first record omits MB but which
is otherwise valid (each chunk decodes, no later record sets MB, the
final record sets ME) decodes successfully. -/
theorem C5_first_record_MB_not_required (data : List Nat) (r0 : NdefRecord)
    (rs : List NdefRecord) (h : ChunksDecode data (r0 :: rs))
    (hmb0 : Nat.land r0.flags RecordFlags.MB ≠ RecordFlags.MB)
    (hmb : ∀ r ∈ rs, Nat.land r.flags RecordFlags.MB ≠ RecordFlags.MB)
    (hme : Nat.land ((r0 :: rs).getLast (List.cons_ne_nil r0 rs)).flags RecordFlags.ME =
      RecordFlags.ME) :
    NdefMessage.decode data = .ok ⟨r0 :: rs⟩ :=
  decode_of_chunks data r0 rs h hmb hme

theorem C5_witness :
    NdefMessage.decode [16, 0, 0, 80, 0, 0] =
      .ok ⟨[⟨16, TNF.Empty, [], none, []⟩, ⟨80, TNF.Empty, [], none, []⟩]⟩ :=
  C5_first_record_MB_not_required [16, 0, 0, 80, 0, 0] ⟨16, TNF.Empty, [], none, []⟩
    [⟨80, TNF.Empty, [], none, []⟩] ⟨[80, 0, 0], rfl, [], rfl, rfl⟩
    (by decide) (by intro r hr; simp at hr; subst hr; decide) (by decide)

/-- C6: Encode error propagation and atomicity — `NdefMessage::to_buffer`
concatenates each record's encoded buffer in sequence order, and fails
exactly by propagating the error of the first record whose own encode
fails, returning that error and no partial buffer. -/
theorem C6_encode_propagation (m : NdefMessage) :
    (∀ bufs, List.Forall₂ (fun p b => (Prod.snd p).toBuffer
        (flagFor m.records.length (Prod.fst p)) = .ok b)
        (List.enumFrom 0 m.records) bufs →
      m.to_buffer = .ok bufs.flatten) ∧
    (∀ pre r post e, m.records = pre ++ r :: post →
      (∀ p ∈ List.enumFrom 0 pre, ∃ b, (Prod.snd p).toBuffer
        (flagFor m.records.length (Prod.fst p)) = .ok b) →
      r.toBuffer (flagFor m.records.length pre.length) = .error e →
      m.to_buffer = .error e) := by
  constructor
  · intro bufs h
    unfold NdefMessage.to_buffer
    exact toBufferGo_join m.records m.records.length 0 bufs h
  · intro pre r post e hsplit hok herr
    unfold NdefMessage.to_buffer
    rw [hsplit] at hok herr ⊢
    exact toBufferGo_error pre r post (pre ++ r :: post).length 0 e hok
      (by rw [show (0 : Nat) + pre.length = pre.length from by omega]; exact herr)

set_option maxRecDepth 10000 in
theorem C6_witness :
    NdefMessage.to_buffer ⟨[⟨0, TNF.Empty, List.replicate 256 0, none, []⟩]⟩ =
      .error "EncodingError: record type too long" :=
  (C6_encode_propagation ⟨[⟨0, TNF.Empty, List.replicate 256 0, none, []⟩]⟩).2
    [] ⟨0, TNF.Empty, List.replicate 256 0, none, []⟩ []
    "EncodingError: record type too long" rfl
    (by intro p hp; simp [List.enumFrom] at hp) rfl

/-- C7: Decode termination — the decode loop of `NdefMessage::decode` is a
total single-pass traversal: with fuel exceeding the buffer length it
always delivers a result (each successful record decode strictly advances
the cursor), and a successful decode means the chunks consumed cover the
entire input, the loop exiting exactly when the cumulative consumed bytes
reach the total length (no record-count prefix is involved). -/
theorem C7_decode_terminates :
    (∀ (fuel : Nat) (data : List Nat) (acc : List NdefRecord), data.length < fuel →
      (decodeLoop fuel data acc).isSome = true) ∧
    (∀ (data rest : List Nat) (r : NdefRecord), NdefRecord.decode data = .ok (r, rest) →
      rest.length < data.length) ∧
    (∀ (data : List Nat) (m : NdefMessage), NdefMessage.decode data = .ok m →
      ChunksDecode data m.records) := by
  refine ⟨decodeLoop_isSome, fun data rest r h => NdefRecord.decode_length_lt h, ?_⟩
  intro data m h
  unfold NdefMessage.decode at h
  cases hdl : decodeLoop (data.length + 1) data [] with
  | none =>
    rw [hdl] at h
    simp at h
  | some res =>
    cases res with
    | error e =>
      rw [hdl] at h
      simp at h
    | ok out =>
      rw [hdl] at h
      simp only [Except.ok.injEq] at h
      obtain ⟨rs, hout, hne, hch⟩ := decodeLoop_ok_chunks (data.length + 1) data [] out hdl
      rw [← h]
      simpa [hout] using hch

theorem C7_witness :
    (decodeLoop 4 [208, 0, 0] []).isSome = true ∧
      ChunksDecode [208, 0, 0] (NdefMessage.mk [⟨208, TNF.Empty, [], none, []⟩]).records :=
  ⟨C7_decode_terminates.1 4 [208, 0, 0] [] (by decide),
   C7_decode_terminates.2.2 [208, 0, 0] ⟨[⟨208, TNF.Empty, [], none, []⟩]⟩ rfl⟩

/-- C8: Decode result is non-empty — a successful `NdefMessage::decode`
always returns at least one record (a record decode is attempted before
any loop-exit check), and in particular the empty input buffer fails
rather than producing an empty message. -/
theorem C8_decode_nonempty (data : List Nat) (m : NdefMessage)
    (h : NdefMessage.decode data = .ok m) :
    m.records ≠ [] ∧
      NdefMessage.decode [] = .error "DecodingError: unexpected end of buffer" := by
  refine ⟨?_, rfl⟩
  unfold NdefMessage.decode at h
  cases hdl : decodeLoop (data.length + 1) data [] with
  | none =>
    rw [hdl] at h
    simp at h
  | some res =>
    cases res with
    | error e =>
      rw [hdl] at h
      simp at h
    | ok out =>
      rw [hdl] at h
      simp only [Except.ok.injEq] at h
      obtain ⟨rs, hout, hne, hch⟩ := decodeLoop_ok_chunks (data.length + 1) data [] out hdl
      rw [← h]
      simp only [hout, List.nil_append]
      exact hne

theorem C8_witness :
    (NdefMessage.mk [⟨208, TNF.Empty, [], none, []⟩]).records ≠ [] ∧
      NdefMessage.decode [] = .error "DecodingError: unexpected end of buffer" :=
  C8_decode_nonempty [208, 0, 0] ⟨[⟨208, TNF.Empty, [], none, []⟩]⟩ rfl

/-- C9: Interior ME leniency — the decode loop inspects ME only on the
record that exhausts the buffer: a buffer that is otherwise valid decodes
successfully even when a non-final record (one in `dropLast`) carries ME. -/
theorem C9_interior_ME_ignored (data : List Nat) (r0 : NdefRecord) (rs : List NdefRecord)
    (h : ChunksDecode data (r0 :: rs)) (w : NdefRecord) (hw : w ∈ (r0 :: rs).dropLast)
    (hwme : Nat.land w.flags RecordFlags.ME = RecordFlags.ME)
    (hmb : ∀ r ∈ rs, Nat.land r.flags RecordFlags.MB ≠ RecordFlags.MB)
    (hme : Nat.land ((r0 :: rs).getLast (List.cons_ne_nil r0 rs)).flags RecordFlags.ME =
      RecordFlags.ME) :
    NdefMessage.decode data = .ok ⟨r0 :: rs⟩ :=
  decode_of_chunks data r0 rs h hmb hme

theorem C9_witness :
    NdefMessage.decode [80, 0, 0, 80, 0, 0] =
      .ok ⟨[⟨80, TNF.Empty, [], none, []⟩, ⟨80, TNF.Empty, [], none, []⟩]⟩ :=
  C9_interior_ME_ignored [80, 0, 0, 80, 0, 0] ⟨80, TNF.Empty, [], none, []⟩
    [⟨80, TNF.Empty, [], none, []⟩] ⟨[80, 0, 0], rfl, [], rfl, rfl⟩
    ⟨80, TNF.Empty, [], none, []⟩ (by simp) (by decide)
    (by intro r hr; simp at hr; subst hr; decide) (by decide)

/-- C10: Zero-record message encodes — the empty message is constructible
at the public interface (`Default`, or `From` an empty record slice) and
`NdefMessage::to_buffer` on it returns the empty buffer, not an error. -/
theorem C10_empty_message_encodes :
    NdefMessage.defaultMsg.records = [] ∧
    NdefMessage.ofRecords [] = NdefMessage.defaultMsg ∧
    NdefMessage.to_buffer NdefMessage.defaultMsg = .ok [] :=
  ⟨rfl, rfl, rfl⟩

theorem C1_witness :
    ∃ buf rs,
      (NdefMessage.mk [⟨0, TNF.WellKnown, [85], none, [0, 119]⟩]).to_buffer = .ok buf ∧
      NdefMessage.decode buf = .ok ⟨rs⟩ ∧
      List.Forall₂ NdefRecord.sameContent
        (NdefMessage.mk [⟨0, TNF.WellKnown, [85], none, [0, 119]⟩]).records rs :=
  C1_round_trip ⟨[⟨0, TNF.WellKnown, [85], none, [0, 119]⟩]⟩ (by simp)
    (by intro r hr; simp at hr; subst hr; exact ⟨by decide, by decide, by decide⟩)
